import Mathlib

/-!
Verification of the plan-page assembly pipeline of the wiring-documentation
tool.  The development shallowly embeds the page-selection and ordering
algorithms of `riffle_shuffle.py`, `cropper.py` and `builder.py`:

* a PDF file is a list of pages (an arbitrary type `α`); the filesystem is a
  total function from filenames to page lists (claims under verification do
  not concern unreadable files);
* `get_page_counts` / `validate_page_counts` / `riffle_shuffle_pdfs` embed
  the functions of the same names in `riffle_shuffle.py`; a Python dict is an
  insertion-ordered association list with update-in-place on key collision;
  an exception inside the interleaving loop (and a validation failure) makes
  the function return `none`, i.e. no output document is written;
* `normalise_name` / `get_crop_position` embed the room-name normalisation
  and crops-file scan of `DocumentationPackBuilder._get_crop_position`
  (builder.py lines 295-313); a crops file is a list of CSV rows, each row a
  list of string fields, and a raised `ValueError` is `none`;
* `plan_pages` / `combine_final_output` embed the page-selection loop of
  `DocumentationPackBuilder._combine_final_output` (builder.py lines
  315-354), returning the final page list together with the list of rooms
  whose plan pages were skipped (the printed warnings);
* `create_room_data_pages` embeds `_create_room_data_pages` (builder.py
  lines 149-181): the per-room data-document generator is an abstract
  function `gen`, a raised per-room exception is `gen name = none` and makes
  the whole stage fail;
* `load_page` / `crop_pdf` embed `cropper.py`: `load_page` models
  `fitz.Document.load_page`, which accepts any 0-based index below the page
  count and resolves negative indices modulo the page count (Python-sequence
  style, per the PyMuPDF documentation), raising for indices at or beyond
  the page count; an output page is modelled as the pair of the source page
  shown on it and the crop rectangle applied to it, the rectangle payload
  being an arbitrary type `ρ` (its float geometry is out of scope).
-/

namespace WiringDoc

/-! ## riffle_shuffle.py -/

/-- Python dict assignment `d[k] = v` on an insertion-ordered association
list: an existing key keeps its position and gets the new value, a new key is
appended at the end. -/
def dictInsert {β : Type} (d : List (String × β)) (k : String) (v : β) :
    List (String × β) :=
  match d with
  | [] => [(k, v)]
  | (k2, v2) :: rest =>
    if k2 == k then (k2, v) :: rest else (k2, v2) :: dictInsert rest k v

/-- Python dict lookup `d[k]` (as an option). -/
def dictLookup {β : Type} (d : List (String × β)) (k : String) : Option β :=
  match d with
  | [] => none
  | (k2, v) :: rest => if k2 == k then some v else dictLookup rest k

/-- `get_page_counts` (riffle_shuffle.py lines 10-20): the dict mapping each
input filename to the page count of that file.  `fs` is the filesystem. -/
def get_page_counts {α : Type} (fs : String → List α) (input_files : List String) :
    List (String × Nat) :=
  input_files.foldl (fun d f => dictInsert d f (fs f).length) []

/-- `validate_page_counts` (riffle_shuffle.py lines 23-36): false on an empty
dict, otherwise true exactly when every count equals the first count. -/
def validate_page_counts : List (String × Nat) → Bool
  | [] => false
  | (f, first) :: rest => ((f, first) :: rest).all (fun p => p.2 == first)

/-- The stderr listing produced by `validate_page_counts` on a mismatch
(riffle_shuffle.py lines 31-33): every dict item `(filename, count)`, in dict
order; `none` when no mismatch error is reported. -/
def page_count_error_report (page_counts : List (String × Nat)) :
    Option (List (String × Nat)) :=
  match page_counts with
  | [] => none
  | _ :: _ =>
    if validate_page_counts page_counts then none else some page_counts

/-- The inner loop of `riffle_shuffle_pdfs` (riffle_shuffle.py lines 62-63):
one page from each reader, in input order, at slot `s`; an out-of-range page
access raises (caught at line 73), modelled as `none`. -/
def readRow {α : Type} (fs : String → List α) (files : List String) (s : Nat) :
    Option (List α) :=
  match files with
  | [] => some []
  | f :: rest =>
    match (fs f)[s]?, readRow fs rest s with
    | some page, some pages => some (page :: pages)
    | _, _ => none

/-- The outer loop of `riffle_shuffle_pdfs` (riffle_shuffle.py lines 61-63):
for each slot in order, the pages of all readers at that slot. -/
def readSlots {α : Type} (fs : String → List α) (files : List String) :
    List Nat → Option (List α)
  | [] => some []
  | s :: rest =>
    match readRow fs files s, readSlots fs files rest with
    | some row, some tail => some (row ++ tail)
    | _, _ => none

/-- `riffle_shuffle_pdfs` (riffle_shuffle.py lines 39-78): `none` models a
`False` return (no output file written), `some out` models a successful write
of the interleaved page list `out`. -/
def riffle_shuffle_pdfs {α : Type} (fs : String → List α)
    (input_files : List String) : Option (List α) :=
  let page_counts := get_page_counts fs input_files
  if validate_page_counts page_counts then
    match page_counts with
    | [] => none
    | (_, num_pages) :: _ => readSlots fs input_files (List.range num_pages)
  else none

/-! ## builder.py: room-name normalisation and crops-file lookup -/

/-- Whitespace as recognised by Python `str.split()` (the ASCII whitespace
characters relevant to the embedded text processing). -/
def pyIsSpace (c : Char) : Bool :=
  c == ' ' || c == '\t' || c == '\n' || c == '\r' || c == '\x0b' || c == '\x0c'

/-- Python `s.split()`: the maximal non-whitespace runs of `l`, in order,
with empty runs discarded. -/
def splitWS (l : List Char) : List (List Char) :=
  (l.foldr
    (fun c acc =>
      if pyIsSpace c then [] :: acc
      else
        match acc with
        | [] => [[c]]
        | w :: ws => (c :: w) :: ws)
    [[]]).filter (fun w => !w.isEmpty)

/-- Python `s.strip()`: drop leading and trailing whitespace. -/
def pyStrip (l : List Char) : List Char :=
  ((l.dropWhile pyIsSpace).reverse.dropWhile pyIsSpace).reverse

/-- The chained `str.replace` calls of builder.py lines 305/308: right single
quote U+2019 to ASCII apostrophe, left/right double quote U+201C / U+201D to
ASCII double quote. -/
def mapAsciiQuotes (c : Char) : Char :=
  if c == Char.ofNat 0x2019 then Char.ofNat 39
  else if c == Char.ofNat 0x201c then Char.ofNat 34
  else if c == Char.ofNat 0x201d then Char.ofNat 34
  else c

/-- The normalisation pass applied to both the crops-file field and the
queried room name in `_get_crop_position` (builder.py lines 303-308):
collapse whitespace runs with a split/join, strip, then map the Unicode
quote variants to ASCII. -/
def normalise_name (s : String) : String :=
  String.mk ((pyStrip (List.intercalate [' '] (splitWS s.data))).map mapAsciiQuotes)

/-- One iteration of the scan in `_get_crop_position` (builder.py lines
301-311): a row matches when it is non-empty and its first field normalises
to the normalised query. -/
def row_matches (room : String) (row : List String) : Bool :=
  match row with
  | [] => false
  | name :: _ => normalise_name name == normalise_name room

/-- `_get_crop_position` (builder.py lines 295-313): the index (counting
every CSV row, in file-read order) of the first matching row; `none` models
the raised `ValueError` when no row matches. -/
def get_crop_position (crops : List (List String)) (room : String) : Option Nat :=
  match crops with
  | [] => none
  | row :: rest =>
    if row_matches room row then some 0
    else (get_crop_position rest room).map (· + 1)

/-! ## builder.py: final assembly -/

/-- The plan-page selection loop of `_combine_final_output` (builder.py
lines 344-347): the pages of `shuffled` at indices `start`, ...,
`start + numTabs - 1`, skipping every index that is not below the actual
page count. -/
def plan_pages {α : Type} (shuffled : List α) (start numTabs : Nat) : List α :=
  (List.range numTabs).filterMap (fun offset => shuffled[start + offset]?)

/-- The per-room loop of `_combine_final_output` (builder.py lines 328-354).
For each configured room, in order: the pages of its data document when the
room is in the `room_data` dict, then its plan pages when the crops-file
lookup succeeds; a failed lookup appends no plan pages and records the room
in the returned warning list (the printed skip message), and processing
continues with the next room. -/
def combine_final_output {α : Type} (room_data : List (String × List α))
    (crops : List (List String)) (shuffled : List α) (numTabs : Nat) :
    List String → List α × List String
  | [] => ([], [])
  | name :: rest =>
    let dataPages := (dictLookup room_data name).getD []
    let tail := combine_final_output room_data crops shuffled numTabs rest
    match get_crop_position crops name with
    | some pos =>
      (dataPages ++ (plan_pages shuffled (pos * numTabs) numTabs ++ tail.1), tail.2)
    | none => (dataPages ++ tail.1, name :: tail.2)

/-! ## builder.py: room data pages -/

/-- The loop of `_create_room_data_pages` (builder.py lines 155-179) over the
remaining rooms, carrying the dict built so far: `gen` abstracts the
`extract_zone_data` + `html_to_pdf` generation of one room's data document,
`gen name = none` modelling a raised exception, which aborts the whole stage
(re-raised as `RuntimeError` at line 179). -/
def create_room_data_go {δ : Type} (gen : String → Option δ) :
    List String → List (String × δ) → Option (List (String × δ))
  | [], d => some d
  | name :: rest, d =>
    match gen name with
    | none => none
    | some doc => create_room_data_go gen rest (dictInsert d name doc)

/-- `_create_room_data_pages` (builder.py lines 149-181): on success, the
dict mapping each configured room name to its generated data document. -/
def create_room_data_pages {δ : Type} (gen : String → Option δ)
    (rooms : List String) : Option (List (String × δ)) :=
  create_room_data_go gen rooms []

/-! ## cropper.py -/

/-- One parsed row of the crops CSV (cropper.py lines 17-19): a page name, a
1-based source page number, and a crop-rectangle payload. -/
structure CropRow (ρ : Type) where
  page_name : String
  source_page : Int
  rect : ρ

/-- `fitz.Document.load_page` on a 0-based index `pno`: an index at or
beyond the page count raises (modelled as `none`); negative indices are
resolved modulo the page count, Python-sequence style, per the PyMuPDF
documentation (on an empty document every access raises). -/
def load_page {β : Type} (doc : List β) (pno : Int) : Option β :=
  if pno ≥ (doc.length : Int) then none
  else doc[(pno % (doc.length : Int)).toNat]?

/-- `crop_pdf` (cropper.py lines 5-35): for each crop row in table order,
load source page `source_page - 1` (0-based) and append one output page
showing that source page under the row's crop rectangle; any failed page
load raises, and the output file is only written after the loop, so a
failure produces no output (`none`). -/
def crop_pdf {β ρ : Type} (doc : List β) : List (CropRow ρ) → Option (List (β × ρ))
  | [] => some []
  | row :: rest =>
    match load_page doc (row.source_page - 1) with
    | none => none
    | some page =>
      match crop_pdf doc rest with
      | none => none
      | some out => some ((page, row.rect) :: out)

/-! ## Concrete instances used by the witnesses -/

/-- Two tab files of two pages each, named in tab order. -/
def exFiles : List String := ["taba", "tabb"]

/-- Pages of the two tab files: slot-indexed page numbers. -/
def exFs : String → List Nat := fun f => if f == "taba" then [10, 11] else [20, 21]

/-- Three tab files with page counts 3, 3, 2 (the mismatch scenario). -/
def exFilesMismatch : List String := ["taba", "tabb", "tabc"]

/-- Page lists of counts 3, 3 and 2. -/
def exFsMismatch : String → List Nat :=
  fun f => if f == "taba" then [1, 2, 3] else if f == "tabb" then [4, 5, 6] else [7, 8]

/-- A two-row crop table (slot 0 = Room1, slot 1 = Room2). -/
def exTable : List (CropRow Unit) := [⟨"Room1", 1, ()⟩, ⟨"Room2", 2, ()⟩]

/-- The same two rows as raw CSV fields, for the lookup side. -/
def exCrops : List (List String) := [["Room1", "1"], ["Room2", "2"]]

/-- Cropped per-tab documents: one page per crop row, per tab file. -/
def exFsPair : String → List (Nat × Unit) :=
  fun f => if f == "taba" then [(100, ()), (101, ())] else [(200, ()), (201, ())]

/-- A crops file with an empty row (which still consumes an index) and a
duplicated room name (first match must win). -/
def exCropsDup : List (List String) := [["Alpha"], [], ["Beta"], ["Beta", "dup"]]

/-- A room name containing the right single quote U+2019. -/
def exCurlyName : String :=
  String.mk ['O', Char.ofNat 0x2019, 'B', 'r', 'i', 'e', 'n', ' ', 'R', 'o', 'o', 'm']

/-- The same room name with the ASCII apostrophe (code 39). -/
def exStraightName : String :=
  String.mk ['O', Char.ofNat 39, 'B', 'r', 'i', 'e', 'n', ' ', 'R', 'o', 'o', 'm']

/-- A name wrapped in left/right double quotes U+201C and U+201D. -/
def exCurlyQuoted : String :=
  String.mk [Char.ofNat 0x201c, 'H', 'i', Char.ofNat 0x201d]

/-- The same name wrapped in the ASCII double quote (code 34). -/
def exStraightQuoted : String :=
  String.mk [Char.ofNat 34, 'H', 'i', Char.ofNat 34]

/-- A crops file whose second row names the O'Brien room with the ASCII
apostrophe. -/
def exCropsObrien : List (List String) := [["Gamma"], [exStraightName, "5"]]

/-! ## Dictionary lemmas -/

theorem dictInsert_ne_nil {β : Type} (d : List (String × β)) (k : String) (v : β) :
    dictInsert d k v ≠ [] := by
  cases d with
  | nil => simp [dictInsert]
  | cons kv rest =>
    obtain ⟨k2, v2⟩ := kv
    simp only [dictInsert]
    split <;> simp

theorem dictInsert_mem_self {β : Type} (d : List (String × β)) (k : String) (v : β) :
    (k, v) ∈ dictInsert d k v := by
  induction d with
  | nil => simp [dictInsert]
  | cons kv rest ih =>
    obtain ⟨k2, v2⟩ := kv
    simp only [dictInsert]
    split
    · rename_i h
      have hk : k2 = k := by simpa using h
      subst hk
      exact List.mem_cons_self _ _
    · exact List.mem_cons_of_mem _ ih

theorem dictInsert_mem_of {β : Type} {d : List (String × β)} {k1 : String} {v1 : β}
    (k : String) (v : β) (h : (k1, v1) ∈ d) (hne : k1 ≠ k) :
    (k1, v1) ∈ dictInsert d k v := by
  induction d with
  | nil => simp at h
  | cons kv rest ih =>
    obtain ⟨k2, v2⟩ := kv
    simp only [dictInsert]
    rcases List.mem_cons.mp h with heq | hm
    · have hk : k1 = k2 ∧ v1 = v2 := by simpa using heq
      obtain ⟨rfl, rfl⟩ := hk
      rw [if_neg (by simpa using hne)]
      exact List.mem_cons_self _ _
    · split
      · exact List.mem_cons_of_mem _ hm
      · exact List.mem_cons_of_mem _ (ih hm)

theorem dictInsert_mem_spec {β : Type} {d : List (String × β)} {k k1 : String}
    {v v1 : β} (h : (k1, v1) ∈ dictInsert d k v) :
    (k1, v1) ∈ d ∨ (k1 = k ∧ v1 = v) := by
  induction d with
  | nil =>
    simp only [dictInsert] at h
    right
    simpa using h
  | cons kv rest ih =>
    obtain ⟨k2, v2⟩ := kv
    simp only [dictInsert] at h
    split at h
    · rename_i hk
      have hk2 : k2 = k := by simpa using hk
      rcases List.mem_cons.mp h with heq | hm
      · right
        refine ⟨?_, ?_⟩
        · have h1 : k1 = k2 := by simpa using congrArg Prod.fst heq
          exact h1.trans hk2
        · simpa using congrArg Prod.snd heq
      · exact Or.inl (List.mem_cons_of_mem _ hm)
    · rcases List.mem_cons.mp h with heq | hm
      · exact Or.inl (heq ▸ List.mem_cons_self _ _)
      · rcases ih hm with h1 | h2
        · exact Or.inl (List.mem_cons_of_mem _ h1)
        · exact Or.inr h2

/-! ## get_page_counts lemmas -/

theorem get_page_counts_go_mem {α : Type} (fs : String → List α) :
    ∀ (files : List String) (d : List (String × Nat)) (f : String),
      f ∈ files ∨ (f, (fs f).length) ∈ d →
      (f, (fs f).length) ∈ files.foldl (fun d g => dictInsert d g (fs g).length) d := by
  intro files
  induction files with
  | nil =>
    intro d f h
    rcases h with h | h
    · simp at h
    · simpa using h
  | cons g rest ih =>
    intro d f h
    simp only [List.foldl_cons]
    apply ih
    rcases h with h | h
    · rcases List.mem_cons.mp h with rfl | hm
      · exact Or.inr (dictInsert_mem_self ..)
      · exact Or.inl hm
    · by_cases hfg : f = g
      · subst hfg
        exact Or.inr (dictInsert_mem_self ..)
      · exact Or.inr (dictInsert_mem_of _ _ h hfg)

theorem get_page_counts_mem {α : Type} (fs : String → List α) {files : List String}
    {f : String} (h : f ∈ files) :
    (f, (fs f).length) ∈ get_page_counts fs files :=
  get_page_counts_go_mem fs files [] f (Or.inl h)

theorem get_page_counts_go_spec {α : Type} (fs : String → List α) :
    ∀ (files : List String) (d : List (String × Nat)) (kv : String × Nat),
      kv ∈ files.foldl (fun d g => dictInsert d g (fs g).length) d →
      kv ∈ d ∨ (kv.1 ∈ files ∧ kv.2 = (fs kv.1).length) := by
  intro files
  induction files with
  | nil =>
    intro d kv h
    exact Or.inl (by simpa using h)
  | cons g rest ih =>
    intro d kv h
    simp only [List.foldl_cons] at h
    rcases ih _ kv h with h1 | h2
    · obtain ⟨k1, v1⟩ := kv
      rcases dictInsert_mem_spec h1 with h3 | h4
      · exact Or.inl h3
      · right
        obtain ⟨rfl, rfl⟩ := h4
        exact ⟨List.mem_cons_self _ _, rfl⟩
    · exact Or.inr ⟨List.mem_cons_of_mem _ h2.1, h2.2⟩

theorem get_page_counts_spec {α : Type} (fs : String → List α) {files : List String}
    {kv : String × Nat} (h : kv ∈ get_page_counts fs files) :
    kv.1 ∈ files ∧ kv.2 = (fs kv.1).length := by
  rcases get_page_counts_go_spec fs files [] kv h with h1 | h2
  · simp at h1
  · exact h2

theorem get_page_counts_go_ne_nil {α : Type} (fs : String → List α) :
    ∀ (files : List String) (d : List (String × Nat)),
      files ≠ [] ∨ d ≠ [] →
      files.foldl (fun d g => dictInsert d g (fs g).length) d ≠ [] := by
  intro files
  induction files with
  | nil =>
    intro d h
    rcases h with h | h
    · exact absurd rfl h
    · simpa using h
  | cons g rest ih =>
    intro d h
    simp only [List.foldl_cons]
    exact ih _ (Or.inr (dictInsert_ne_nil d g (fs g).length))

theorem get_page_counts_ne_nil {α : Type} (fs : String → List α) {files : List String}
    (h : files ≠ []) : get_page_counts fs files ≠ [] :=
  get_page_counts_go_ne_nil fs files [] (Or.inl h)

/-! ## Interleaving-loop lemmas -/

theorem readRow_isSome {α : Type} (fs : String → List α) :
    ∀ (files : List String) (s : Nat),
      (∀ f ∈ files, s < (fs f).length) →
      ∃ row, readRow fs files s = some row := by
  intro files
  induction files with
  | nil => exact fun s _ => ⟨[], rfl⟩
  | cons f rest ih =>
    intro s h
    obtain ⟨row, hrow⟩ := ih s (fun g hg => h g (List.mem_cons_of_mem _ hg))
    have hf : s < (fs f).length := h f (List.mem_cons_self _ _)
    refine ⟨(fs f).get ⟨s, hf⟩ :: row, ?_⟩
    simp only [readRow]
    rw [List.getElem?_eq_getElem hf, hrow]
    rfl

theorem readRow_spec {α : Type} (fs : String → List α) :
    ∀ (files : List String) (s : Nat) (row : List α),
      readRow fs files s = some row →
      row.length = files.length ∧
        ∀ t : Nat, row[t]? = (files[t]?).bind (fun f => (fs f)[s]?) := by
  intro files
  induction files with
  | nil =>
    intro s row h
    simp only [readRow, Option.some.injEq] at h
    subst h
    exact ⟨rfl, fun t => by simp⟩
  | cons f rest ih =>
    intro s row h
    simp only [readRow] at h
    cases hf : (fs f)[s]? with
    | none =>
      rw [hf] at h
      simp at h
    | some page =>
      cases hr : readRow fs rest s with
      | none =>
        rw [hf, hr] at h
        simp at h
      | some pages =>
        rw [hf, hr] at h
        simp only [Option.some.injEq] at h
        subst h
        obtain ⟨hlen, hidx⟩ := ih s pages hr
        refine ⟨by simpa using hlen, ?_⟩
        intro t
        cases t with
        | zero => simp [hf]
        | succ t => simpa using hidx t

theorem readSlots_isSome {α : Type} (fs : String → List α) (files : List String) :
    ∀ slots : List Nat,
      (∀ s ∈ slots, ∀ f ∈ files, s < (fs f).length) →
      ∃ out, readSlots fs files slots = some out := by
  intro slots
  induction slots with
  | nil => exact fun _ => ⟨[], rfl⟩
  | cons s rest ih =>
    intro h
    obtain ⟨tail, htail⟩ := ih (fun u hu => h u (List.mem_cons_of_mem _ hu))
    obtain ⟨row, hrow⟩ := readRow_isSome fs files s (h s (List.mem_cons_self _ _))
    refine ⟨row ++ tail, ?_⟩
    simp only [readSlots]
    rw [hrow, htail]

theorem readSlots_cases {α : Type} (fs : String → List α) (files : List String)
    (s : Nat) (rest : List Nat) (out : List α)
    (h : readSlots fs files (s :: rest) = some out) :
    ∃ row tail, readRow fs files s = some row ∧
      readSlots fs files rest = some tail ∧ out = row ++ tail := by
  simp only [readSlots] at h
  cases hr : readRow fs files s with
  | none =>
    rw [hr] at h
    simp at h
  | some row =>
    cases ht : readSlots fs files rest with
    | none =>
      rw [hr, ht] at h
      simp at h
    | some tail =>
      rw [hr, ht] at h
      simp only [Option.some.injEq] at h
      exact ⟨row, tail, rfl, rfl, h.symm⟩

theorem readSlots_length {α : Type} (fs : String → List α) (files : List String) :
    ∀ (slots : List Nat) (out : List α),
      readSlots fs files slots = some out →
      out.length = slots.length * files.length := by
  intro slots
  induction slots with
  | nil =>
    intro out h
    simp only [readSlots, Option.some.injEq] at h
    subst h
    simp
  | cons s rest ih =>
    intro out h
    obtain ⟨row, tail, hrow, htail, rfl⟩ := readSlots_cases fs files s rest out h
    have h1 := (readRow_spec fs files s row hrow).1
    have h2 := ih tail htail
    rw [List.length_append, h1, h2, List.length_cons, Nat.succ_mul]
    omega

theorem readSlots_getElem {α : Type} (fs : String → List α) (files : List String) :
    ∀ (slots : List Nat) (out : List α),
      readSlots fs files slots = some out →
      ∀ (j t : Nat), t < files.length →
        out[j * files.length + t]? =
          (slots[j]?).bind (fun s => (files[t]?).bind (fun f => (fs f)[s]?)) := by
  intro slots
  induction slots with
  | nil =>
    intro out h j t _
    simp only [readSlots, Option.some.injEq] at h
    subst h
    simp
  | cons s rest ih =>
    intro out h j t htlt
    obtain ⟨row, tail, hrow, htail, rfl⟩ := readSlots_cases fs files s rest out h
    obtain ⟨hlen, hidx⟩ := readRow_spec fs files s row hrow
    cases j with
    | zero =>
      rw [Nat.zero_mul, Nat.zero_add]
      rw [List.getElem?_append_left (by omega)]
      rw [hidx t]
      simp
    | succ j =>
      have hge : row.length ≤ (j + 1) * files.length + t := by
        rw [hlen, Nat.succ_mul]
        omega
      rw [List.getElem?_append_right hge]
      have harith : (j + 1) * files.length + t - row.length = j * files.length + t := by
        rw [hlen, Nat.succ_mul]
        omega
      rw [harith, ih tail htail j t htlt]
      simp

theorem validate_of_uniform {α : Type} (fs : String → List α) (files : List String)
    (P : Nat) (hne : files ≠ []) (hP : ∀ f ∈ files, (fs f).length = P) :
    validate_page_counts (get_page_counts fs files) = true ∧
      ∃ k0 rest, get_page_counts fs files = (k0, P) :: rest := by
  cases hpcs : get_page_counts fs files with
  | nil => exact absurd hpcs (get_page_counts_ne_nil fs hne)
  | cons kv rest =>
    obtain ⟨k0, v0⟩ := kv
    have hmem : (k0, v0) ∈ get_page_counts fs files := hpcs ▸ List.mem_cons_self _ _
    have hspec := get_page_counts_spec fs hmem
    have hv0 : v0 = P := hspec.2.trans (hP _ hspec.1)
    subst hv0
    refine ⟨?_, k0, rest, rfl⟩
    simp only [validate_page_counts, List.all_eq_true]
    intro p hp
    have hpmem : p ∈ get_page_counts fs files := by rw [hpcs]; exact hp
    have hps := get_page_counts_spec fs hpmem
    have : p.2 = v0 := hps.2.trans (hP _ hps.1)
    simp [this]

theorem riffle_uniform_eq {α : Type} (fs : String → List α) (files : List String)
    (P : Nat) (hne : files ≠ []) (hP : ∀ f ∈ files, (fs f).length = P) :
    riffle_shuffle_pdfs fs files = readSlots fs files (List.range P) := by
  obtain ⟨hval, k0, rest, hpcs⟩ := validate_of_uniform fs files P hne hP
  simp only [riffle_shuffle_pdfs]
  rw [hpcs] at hval
  rw [hpcs, hval]
  simp

/-! ## Claim theorems about the interleaver -/

/-- C1, counterexample to the claim as stated: the claim quantifies over
every sequence of N tab documents and asserts that riffle succeeds with an
N*P-page output, but for the empty sequence (N = 0) `riffle_shuffle_pdfs`
fails (`validate_page_counts` rejects an empty page-count dict) and produces
no output document instead of succeeding with an empty one. -/
theorem riffle_empty_seq_counterexample :
    riffle_shuffle_pdfs (fun _ => ([] : List Nat)) [] = none := rfl

/-- C1 (amended): for every nonempty sequence of N tab documents each with
exactly P pages, riffle succeeds and produces an output of exactly N*P pages
in which the page at absolute index slot*N + tab equals page slot of the
tab-th input document, for every slot below P and tab below N, tabs in the
order the documents were supplied. -/
theorem riffle_interleave_inverse {α : Type} (fs : String → List α)
    (files : List String) (P : Nat) (hne : files ≠ [])
    (hP : ∀ f ∈ files, (fs f).length = P) :
    ∃ out, riffle_shuffle_pdfs fs files = some out ∧
      out.length = files.length * P ∧
      ∀ slot tab f, slot < P → files[tab]? = some f →
        out[slot * files.length + tab]? = (fs f)[slot]? := by
  have heq := riffle_uniform_eq fs files P hne hP
  obtain ⟨out, hout⟩ := readSlots_isSome fs files (List.range P)
    (fun s hs f hf => by rw [hP f hf]; exact List.mem_range.mp hs)
  refine ⟨out, heq.trans hout, ?_, ?_⟩
  · have hlen := readSlots_length fs files _ out hout
    rw [List.length_range] at hlen
    rw [hlen, Nat.mul_comm]
  · intro slot tab f hslot htab
    have htablt : tab < files.length := by
      by_contra hcon
      rw [List.getElem?_eq_none (Nat.le_of_not_lt hcon)] at htab
      exact Option.noConfusion htab
    have h := readSlots_getElem fs files _ out hout slot tab htablt
    rw [h, List.getElem?_range hslot]
    simp [htab]

/-- C1 witness: the amended theorem applied to two concrete two-page tab
documents. -/
theorem riffle_interleave_inverse_witness :
    ∃ out, riffle_shuffle_pdfs exFs exFiles = some out ∧
      out.length = exFiles.length * 2 ∧
      ∀ slot tab f, slot < 2 → exFiles[tab]? = some f →
        out[slot * exFiles.length + tab]? = (exFs f)[slot]? :=
  riffle_interleave_inverse exFs exFiles 2 (by decide) (by decide)

/-- C9: with zero input documents, riffle fails (returns a failure result,
writing no output document); it does not succeed with an empty interleaved
document, because `validate_page_counts` returns false on the empty
page-count dict. -/
theorem riffle_no_input_files_fails {α : Type} (fs : String → List α) :
    riffle_shuffle_pdfs fs [] = none := rfl

/-- C4: whenever two input documents have different page counts, riffle
fails producing no output, and the failure report (the stderr listing of
`validate_page_counts`) names every input document together with its page
count, not just the first offender. -/
theorem riffle_page_count_mismatch {α : Type} (fs : String → List α)
    (files : List String) (f g : String) (hf : f ∈ files) (hg : g ∈ files)
    (hne : (fs f).length ≠ (fs g).length) :
    riffle_shuffle_pdfs fs files = none ∧
      ∃ report,
        page_count_error_report (get_page_counts fs files) = some report ∧
          ∀ x ∈ files, (x, (fs x).length) ∈ report := by
  have hmemf := get_page_counts_mem fs hf
  have hmemg := get_page_counts_mem fs hg
  have hval : validate_page_counts (get_page_counts fs files) = false := by
    cases hb : validate_page_counts (get_page_counts fs files) with
    | false => rfl
    | true =>
      exfalso
      cases hpcs : get_page_counts fs files with
      | nil =>
        rw [hpcs] at hb
        simp [validate_page_counts] at hb
      | cons kv rest =>
        obtain ⟨k0, v0⟩ := kv
        rw [hpcs] at hb
        simp only [validate_page_counts, List.all_eq_true] at hb
        have h1 : (fs f).length = v0 := by
          have := hb _ (hpcs ▸ hmemf)
          simpa using this
        have h2 : (fs g).length = v0 := by
          have := hb _ (hpcs ▸ hmemg)
          simpa using this
        exact hne (h1.trans h2.symm)
  refine ⟨?_, get_page_counts fs files, ?_, fun x hx => get_page_counts_mem fs hx⟩
  · simp [riffle_shuffle_pdfs, hval]
  · cases hpcs : get_page_counts fs files with
    | nil =>
      rw [hpcs] at hmemf
      simp at hmemf
    | cons kv rest =>
      rw [hpcs] at hval
      simp only [page_count_error_report]
      rw [hval]
      simp

/-- C4 witness: the theorem applied to three concrete documents with page
counts 3, 3 and 2. -/
theorem riffle_page_count_mismatch_witness :
    riffle_shuffle_pdfs exFsMismatch exFilesMismatch = none ∧
      ∃ report,
        page_count_error_report (get_page_counts exFsMismatch exFilesMismatch)
            = some report ∧
          ∀ x ∈ exFilesMismatch, (x, (exFsMismatch x).length) ∈ report :=
  riffle_page_count_mismatch exFsMismatch exFilesMismatch "taba" "tabc"
    (by decide) (by decide) (by decide)

/-! ## Lemmas for the crop table and the assembler -/

theorem crop_pdf_length {β ρ : Type} (doc : List β) :
    ∀ (table : List (CropRow ρ)) (out : List (β × ρ)),
      crop_pdf doc table = some out → out.length = table.length := by
  intro table
  induction table with
  | nil =>
    intro out h
    simp only [crop_pdf, Option.some.injEq] at h
    subst h
    rfl
  | cons row rest ih =>
    intro out h
    simp only [crop_pdf] at h
    cases hl : load_page doc (row.source_page - 1) with
    | none =>
      rw [hl] at h
      simp at h
    | some page =>
      rw [hl] at h
      cases hc : crop_pdf doc rest with
      | none =>
        rw [hc] at h
        simp at h
      | some tail =>
        rw [hc] at h
        simp only [Option.some.injEq] at h
        subst h
        simp [ih tail hc]

theorem get_crop_position_lt :
    ∀ (crops : List (List String)) (room : String) (i : Nat),
      get_crop_position crops room = some i → i < crops.length := by
  intro crops
  induction crops with
  | nil => intro room i h; cases h
  | cons row rest ih =>
    intro room i h
    simp only [get_crop_position] at h
    split at h
    · simp only [Option.some.injEq] at h
      simp only [List.length_cons]
      omega
    · cases hr : get_crop_position rest room with
      | none =>
        rw [hr] at h
        simp at h
      | some k =>
        rw [hr] at h
        simp at h
        have := ih room k hr
        simp only [List.length_cons]
        omega

theorem filterMap_congr_mem {σ γ : Type} {l : List σ} {f g : σ → Option γ}
    (h : ∀ a ∈ l, f a = g a) : l.filterMap f = l.filterMap g := by
  induction l with
  | nil => rfl
  | cons x xs ih =>
    rw [List.filterMap_cons, List.filterMap_cons, h x (List.mem_cons_self _ _),
      ih (fun a ha => h a (List.mem_cons_of_mem _ ha))]

theorem range_filterMap_getElem {σ γ : Type} (g : σ → Option γ) :
    ∀ l : List σ,
      (List.range l.length).filterMap (fun i => (l[i]?).bind g) = l.filterMap g := by
  intro l
  induction l with
  | nil => simp
  | cons x xs ih =>
    rw [List.length_cons, List.range_succ_eq_map, List.filterMap_cons,
      List.filterMap_map]
    have hcomp : ((fun i => ((x :: xs)[i]?).bind g) ∘ Nat.succ)
        = fun i => (xs[i]?).bind g := by
      funext i
      simp
    rw [hcomp, ih, List.filterMap_cons]
    simp

theorem filterMap_length_of_isSome {σ γ : Type} {g : σ → Option γ} :
    ∀ l : List σ, (∀ x ∈ l, (g x).isSome) → (l.filterMap g).length = l.length := by
  intro l
  induction l with
  | nil => intro _; rfl
  | cons x xs ih =>
    intro h
    rw [List.filterMap_cons]
    cases hx : g x with
    | none =>
      have := h x (List.mem_cons_self _ _)
      rw [hx] at this
      simp at this
    | some b =>
      simp only [List.length_cons]
      rw [ih (fun a ha => h a (List.mem_cons_of_mem _ ha))]

/-- C2: for every crop table with P rows on which cropping succeeds, and
every nonempty list of N tab documents cropped from it, riffle succeeds; the
page at absolute index i of the riffled document is page i / N of tab
document i % N (so interleaving agrees with the reconstruction formula
slot = i / tabCount, tab = i % tabCount); and the page block the assembler
extracts for a room whose crops-file lookup yields slot s — the pages at
indices s*N .. s*N + N - 1, via `plan_pages` — is exactly that room's
cropped page from each tab, in tab-list order. -/
theorem riffle_assembler_agreement {β ρ : Type} (table : List (CropRow ρ))
    (crops : List (List String)) (room : String) (s : Nat)
    (fs : String → List (β × ρ)) (files : List String)
    (hne : files ≠ [])
    (hcrop : ∀ f ∈ files, ∃ src : List β, crop_pdf src table = some (fs f))
    (hlen : crops.length = table.length)
    (hlookup : get_crop_position crops room = some s) :
    ∃ out, riffle_shuffle_pdfs fs files = some out ∧
      (∀ i, i < files.length * table.length →
        out[i]? = (files[i % files.length]?).bind
          (fun f => (fs f)[i / files.length]?)) ∧
      plan_pages out (s * files.length) files.length
          = files.filterMap (fun f => (fs f)[s]?) ∧
      (plan_pages out (s * files.length) files.length).length = files.length := by
  have hP : ∀ f ∈ files, (fs f).length = table.length := by
    intro f hf
    obtain ⟨src, hsrc⟩ := hcrop f hf
    exact crop_pdf_length src table (fs f) hsrc
  have hs : s < table.length := hlen ▸ get_crop_position_lt crops room s hlookup
  have hNpos : 0 < files.length := List.length_pos.mpr hne
  have heq := riffle_uniform_eq fs files table.length hne hP
  obtain ⟨out, hout⟩ := readSlots_isSome fs files (List.range table.length)
    (fun u hu f hf => by rw [hP f hf]; exact List.mem_range.mp hu)
  have hplan : plan_pages out (s * files.length) files.length
      = files.filterMap (fun f => (fs f)[s]?) := by
    have h1 : plan_pages out (s * files.length) files.length
        = (List.range files.length).filterMap
            (fun off => (files[off]?).bind (fun f => (fs f)[s]?)) := by
      apply filterMap_congr_mem
      intro off hoff
      have hofflt : off < files.length := List.mem_range.mp hoff
      rw [readSlots_getElem fs files _ out hout s off hofflt,
        List.getElem?_range hs]
      simp
    rw [h1, range_filterMap_getElem]
  refine ⟨out, heq.trans hout, ?_, hplan, ?_⟩
  · intro i hi
    have ht : i % files.length < files.length := Nat.mod_lt _ hNpos
    have hidx := readSlots_getElem fs files _ out hout (i / files.length)
      (i % files.length) ht
    have harith : i / files.length * files.length + i % files.length = i := by
      have h0 := Nat.div_add_mod i files.length
      rw [Nat.mul_comm (i / files.length) files.length]
      omega
    rw [harith] at hidx
    rw [hidx]
    have hi2 : i < table.length * files.length := by
      rw [Nat.mul_comm files.length table.length] at hi
      exact hi
    have hjlt : i / files.length < table.length :=
      (Nat.div_lt_iff_lt_mul hNpos).mpr hi2
    rw [List.getElem?_range hjlt]
    simp
  · rw [hplan]
    apply filterMap_length_of_isSome
    intro f hf
    rw [List.getElem?_eq_getElem (by rw [hP f hf]; exact hs)]
    rfl

/-- C2 witness: the theorem applied to a two-row crop table, two source
documents, their cropped tab documents, and room slot 1. -/
theorem riffle_assembler_agreement_witness :
    ∃ out, riffle_shuffle_pdfs exFsPair exFiles = some out ∧
      (∀ i, i < exFiles.length * exTable.length →
        out[i]? = (exFiles[i % exFiles.length]?).bind
          (fun f => (exFsPair f)[i / exFiles.length]?)) ∧
      plan_pages out (1 * exFiles.length) exFiles.length
          = exFiles.filterMap (fun f => (exFsPair f)[1]?) ∧
      (plan_pages out (1 * exFiles.length) exFiles.length).length
          = exFiles.length :=
  riffle_assembler_agreement exTable exCrops "Room2" 1 exFsPair exFiles
    (by decide)
    (by
      intro f hf
      have : f = "taba" ∨ f = "tabb" := by simpa [exFiles] using hf
      rcases this with rfl | rfl
      · exact ⟨[100, 101], by decide⟩
      · exact ⟨[200, 201], by decide⟩)
    (by decide) (by decide)

/-! ## Claim theorems about the crops-file lookup -/

/-- C5: lookup returns the 0-based file-order row index (counting every CSV
row) of the first row whose normalised first field equals the normalised
query — duplicates resolve to the first match in file-read order — and it
raises (returns `none`, never a silent default) exactly when no row
matches. -/
theorem crop_lookup_contract (crops : List (List String)) (room : String) :
    (get_crop_position crops room = none ↔
      ∀ row ∈ crops, row_matches room row = false) ∧
    ∀ i, get_crop_position crops room = some i →
      ∃ row, crops[i]? = some row ∧ row_matches room row = true ∧
        ∀ j, j < i → ∀ row2, crops[j]? = some row2 →
          row_matches room row2 = false := by
  induction crops with
  | nil =>
    constructor
    · simp [get_crop_position]
    · intro i h
      cases h
  | cons row rest ih =>
    cases hm : row_matches room row with
    | true =>
      constructor
      · constructor
        · intro hnone
          simp [get_crop_position, hm] at hnone
        · intro hall
          have hrow := hall row (List.mem_cons_self _ _)
          rw [hm] at hrow
          exact Bool.noConfusion hrow
      · intro i h
        simp only [get_crop_position, hm, if_pos] at h
        have hi : (0 : Nat) = i := by simpa using h
        subst hi
        refine ⟨row, by simp, hm, ?_⟩
        intro j hj row2 _
        omega
    | false =>
      constructor
      · constructor
        · intro hnone row2 hrow2
          rcases List.mem_cons.mp hrow2 with rfl | h2
          · exact hm
          · have hrest : get_crop_position rest room = none := by
              simp only [get_crop_position, hm] at hnone
              cases hrec : get_crop_position rest room with
              | none => rfl
              | some k =>
                rw [hrec] at hnone
                simp at hnone
            exact ih.1.mp hrest row2 h2
        · intro hall
          have hrest : get_crop_position rest room = none :=
            ih.1.mpr (fun r hr => hall r (List.mem_cons_of_mem _ hr))
          simp [get_crop_position, hm, hrest]
      · intro i h
        simp only [get_crop_position, hm] at h
        cases hrec : get_crop_position rest room with
        | none =>
          rw [hrec] at h
          simp at h
        | some k =>
          rw [hrec] at h
          simp at h
          subst h
          obtain ⟨row2, hrow2, hmatch2, hmin⟩ := ih.2 k hrec
          refine ⟨row2, by simpa using hrow2, hmatch2, ?_⟩
          intro j hj row3 hrow3
          cases j with
          | zero =>
            have : row = row3 := by simpa using hrow3
            rw [← this]
            exact hm
          | succ j =>
            have hjk : j < k := by omega
            have h3 : rest[j]? = some row3 := by simpa using hrow3
            exact hmin j hjk row3 h3

/-- C5 witness: in a crops file with an empty row and a duplicated room
name, the lookup for Beta resolves to file-order index 2 — the first match —
and the contract theorem certifies it. -/
theorem crop_lookup_contract_witness :
    ∃ row, exCropsDup[2]? = some row ∧ row_matches "Beta" row = true ∧
      ∀ j, j < 2 → ∀ row2, exCropsDup[j]? = some row2 →
        row_matches "Beta" row2 = false :=
  (crop_lookup_contract exCropsDup "Beta").2 2 (by decide)

theorem row_matches_congr {a b : String}
    (h : normalise_name a = normalise_name b) :
    ∀ row, row_matches a row = row_matches b row := by
  intro row
  cases row with
  | nil => rfl
  | cons name rst => simp [row_matches, h]

theorem get_crop_position_congr {a b : String}
    (h : normalise_name a = normalise_name b) :
    ∀ crops, get_crop_position crops a = get_crop_position crops b := by
  intro crops
  induction crops with
  | nil => rfl
  | cons row rest ih => simp [get_crop_position, row_matches_congr h row, ih]

/-- C6: lookups are invariant under the normalisation — any two queries with
equal normal forms give identical results on every crops file — and the
claimed variant pairs do normalise equally: curly versus straight
apostrophe, curly versus straight double quotes, internal whitespace runs
versus single spaces, and leading/trailing whitespace. -/
theorem crop_lookup_normalisation_invariance :
    (∀ (crops : List (List String)) (a b : String),
        normalise_name a = normalise_name b →
        get_crop_position crops a = get_crop_position crops b) ∧
    normalise_name exCurlyName = normalise_name exStraightName ∧
    normalise_name exCurlyQuoted = normalise_name exStraightQuoted ∧
    normalise_name "Main   Hall" = normalise_name "Main Hall" ∧
    normalise_name "  Main Hall  " = normalise_name "Main Hall" :=
  ⟨fun crops a b h => get_crop_position_congr h crops,
    by decide, by decide, by decide, by decide⟩

/-- C6 witness: on a concrete crops file, the lookups for the curly- and
straight-apostrophe spellings of the O'Brien room coincide. -/
theorem crop_lookup_normalisation_invariance_witness :
    get_crop_position exCropsObrien exCurlyName
      = get_crop_position exCropsObrien exStraightName :=
  crop_lookup_normalisation_invariance.1 exCropsObrien exCurlyName
    exStraightName (by decide)

/-! ## plan_pages lemmas -/

theorem plan_pages_shift {α : Type} (shuffled : List α) (start N : Nat) :
    (List.range N).filterMap ((fun offset => shuffled[start + offset]?) ∘ Nat.succ)
      = plan_pages shuffled (start + 1) N := by
  simp only [plan_pages]
  apply filterMap_congr_mem
  intro a _
  have h : start + Nat.succ a = start + 1 + a := by omega
  simp [Function.comp, h]

theorem plan_pages_succ_some {α : Type} {shuffled : List α} {start : Nat} {p : α}
    (h : shuffled[start]? = some p) (N : Nat) :
    plan_pages shuffled start (N + 1) = p :: plan_pages shuffled (start + 1) N := by
  rw [← plan_pages_shift shuffled start N]
  simp only [plan_pages, List.range_succ_eq_map, List.filterMap_cons,
    List.filterMap_map, Nat.add_zero, h]

theorem plan_pages_succ_none {α : Type} {shuffled : List α} {start : Nat}
    (h : shuffled[start]? = none) (N : Nat) :
    plan_pages shuffled start (N + 1) = plan_pages shuffled (start + 1) N := by
  rw [← plan_pages_shift shuffled start N]
  simp only [plan_pages, List.range_succ_eq_map, List.filterMap_cons,
    List.filterMap_map, Nat.add_zero, h]

theorem plan_pages_length {α : Type} (shuffled : List α) :
    ∀ N start : Nat,
      (plan_pages shuffled start N).length = min N (shuffled.length - start) := by
  intro N
  induction N with
  | zero =>
    intro start
    simp [plan_pages]
  | succ N ih =>
    intro start
    cases hs : shuffled[start]? with
    | some p =>
      have hlt : start < shuffled.length := by
        by_contra hc
        rw [List.getElem?_eq_none (Nat.le_of_not_lt hc)] at hs
        exact Option.noConfusion hs
      rw [plan_pages_succ_some hs N, List.length_cons, ih (start + 1)]
      omega
    | none =>
      have hge : shuffled.length ≤ start := List.getElem?_eq_none_iff.mp hs
      rw [plan_pages_succ_none hs N, ih (start + 1)]
      omega

theorem plan_pages_getElem {α : Type} (shuffled : List α) :
    ∀ N start t : Nat, t < N →
      (plan_pages shuffled start N)[t]? = shuffled[start + t]? := by
  intro N
  induction N with
  | zero =>
    intro start t ht
    omega
  | succ N ih =>
    intro start t ht
    cases hs : shuffled[start]? with
    | some p =>
      rw [plan_pages_succ_some hs N]
      cases t with
      | zero => simp [hs]
      | succ t =>
        rw [List.getElem?_cons_succ, ih (start + 1) t (by omega)]
        have h : start + 1 + t = start + (t + 1) := by omega
        rw [h]
    | none =>
      have hge : shuffled.length ≤ start := List.getElem?_eq_none_iff.mp hs
      rw [plan_pages_succ_none hs N]
      rcases Nat.lt_or_ge t N with hlt | hge2
      · rw [ih (start + 1) t hlt, List.getElem?_eq_none (by omega),
          List.getElem?_eq_none (by omega)]
      · have ht2 : t = N := by omega
        subst ht2
        rw [List.getElem?_eq_none (by rw [plan_pages_length]; omega),
          List.getElem?_eq_none (by omega)]

/-! ## Claim theorems about the final assembler -/

/-- C3: for a room whose crops-file lookup yields slot s, the assembler
appends, after the room's data pages, exactly the pages of the interleaved
document at indices s*tabCount .. s*tabCount + tabCount - 1, skipping
without error every index at or beyond the document's actual page count
(the appended block has length min tabCount (pageCount - s*tabCount)), and
when the document is long enough exactly tabCount plan pages are
appended. -/
theorem assembler_defensive_truncation {α : Type}
    (room_data : List (String × List α)) (crops : List (List String))
    (shuffled : List α) (numTabs : Nat) (name : String) (rest : List String)
    (s : Nat) (h : get_crop_position crops name = some s) :
    (combine_final_output room_data crops shuffled numTabs (name :: rest)).1
        = (dictLookup room_data name).getD []
          ++ (plan_pages shuffled (s * numTabs) numTabs
              ++ (combine_final_output room_data crops shuffled numTabs rest).1) ∧
      (plan_pages shuffled (s * numTabs) numTabs).length
        = min numTabs (shuffled.length - s * numTabs) ∧
      (∀ t, t < numTabs →
        (plan_pages shuffled (s * numTabs) numTabs)[t]?
          = shuffled[s * numTabs + t]?) ∧
      (s * numTabs + numTabs ≤ shuffled.length →
        (plan_pages shuffled (s * numTabs) numTabs).length = numTabs) := by
  refine ⟨?_, plan_pages_length shuffled numTabs (s * numTabs),
    fun t ht => plan_pages_getElem shuffled numTabs (s * numTabs) t ht, ?_⟩
  · simp [combine_final_output, h]
  · intro hle
    rw [plan_pages_length]
    omega

/-- C3 witness: slot 1 with two tabs against a three-page interleaved
document, so the computed range 2..3 is clamped to the single available
page. -/
theorem assembler_defensive_truncation_witness :
    (combine_final_output [("Room2", [5])] exCrops [70, 71, 72] 2 ["Room2"]).1
        = (dictLookup [("Room2", [5])] "Room2").getD []
          ++ (plan_pages [70, 71, 72] (1 * 2) 2
              ++ (combine_final_output [("Room2", [5])] exCrops [70, 71, 72] 2 []).1) ∧
      (plan_pages ([70, 71, 72] : List Nat) (1 * 2) 2).length
        = min 2 (([70, 71, 72] : List Nat).length - 1 * 2) ∧
      (∀ t, t < 2 →
        (plan_pages ([70, 71, 72] : List Nat) (1 * 2) 2)[t]?
          = ([70, 71, 72] : List Nat)[1 * 2 + t]?) ∧
      (1 * 2 + 2 ≤ ([70, 71, 72] : List Nat).length →
        (plan_pages ([70, 71, 72] : List Nat) (1 * 2) 2).length = 2) :=
  assembler_defensive_truncation [("Room2", [5])] exCrops [70, 71, 72] 2
    "Room2" [] 1 (by decide)

theorem combine_final_output_append {α : Type}
    (room_data : List (String × List α)) (crops : List (List String))
    (shuffled : List α) (numTabs : Nat) :
    ∀ l1 l2 : List String,
      combine_final_output room_data crops shuffled numTabs (l1 ++ l2)
        = ((combine_final_output room_data crops shuffled numTabs l1).1
            ++ (combine_final_output room_data crops shuffled numTabs l2).1,
          (combine_final_output room_data crops shuffled numTabs l1).2
            ++ (combine_final_output room_data crops shuffled numTabs l2).2) := by
  intro l1
  induction l1 with
  | nil =>
    intro l2
    simp [combine_final_output]
  | cons name rest ih =>
    intro l2
    simp only [List.cons_append, combine_final_output, List.append_eq]
    rw [ih l2]
    cases hl : get_crop_position crops name <;> simp [List.append_assoc]

/-- C7: a configured room absent from the crop table contributes exactly its
data pages (when a data document is present) and zero plan pages to the
final document, its name is recorded in the warning list, and the rooms
after it are still processed (their pages follow as usual) — the run is not
aborted. -/
theorem assembler_missing_room_tolerance {α : Type}
    (room_data : List (String × List α)) (crops : List (List String))
    (shuffled : List α) (numTabs : Nat) (rooms1 rooms2 : List String)
    (name : String) (h : get_crop_position crops name = none) :
    (combine_final_output room_data crops shuffled numTabs
          (rooms1 ++ name :: rooms2)).1
        = (combine_final_output room_data crops shuffled numTabs rooms1).1
          ++ ((dictLookup room_data name).getD []
              ++ (combine_final_output room_data crops shuffled numTabs rooms2).1) ∧
      name ∈ (combine_final_output room_data crops shuffled numTabs
          (rooms1 ++ name :: rooms2)).2 := by
  rw [combine_final_output_append room_data crops shuffled numTabs rooms1
    (name :: rooms2)]
  constructor
  · simp [combine_final_output, h]
  · simp [combine_final_output, h]

/-- C7 witness: the Ghost room is missing from the crops file; the final
output keeps its data page, gives it no plan pages, records the warning, and
still emits the following room. -/
theorem assembler_missing_room_tolerance_witness :
    (combine_final_output [("Room1", [1]), ("Ghost", [9]), ("Room2", [2])]
          exCrops [70, 71, 72, 73] 2 (["Room1"] ++ "Ghost" :: ["Room2"])).1
        = (combine_final_output [("Room1", [1]), ("Ghost", [9]), ("Room2", [2])]
            exCrops [70, 71, 72, 73] 2 ["Room1"]).1
          ++ ((dictLookup [("Room1", [1]), ("Ghost", [9]), ("Room2", [2])]
                "Ghost").getD []
              ++ (combine_final_output
                  [("Room1", [1]), ("Ghost", [9]), ("Room2", [2])]
                  exCrops [70, 71, 72, 73] 2 ["Room2"]).1) ∧
      "Ghost" ∈ (combine_final_output
          [("Room1", [1]), ("Ghost", [9]), ("Room2", [2])]
          exCrops [70, 71, 72, 73] 2 (["Room1"] ++ "Ghost" :: ["Room2"])).2 :=
  assembler_missing_room_tolerance
    [("Room1", [1]), ("Ghost", [9]), ("Room2", [2])] exCrops [70, 71, 72, 73]
    2 ["Room1"] ["Room2"] "Ghost" (by decide)

/-! ## Room-data-stage lemmas and claim -/

theorem dictLookup_insert_self {δ : Type} (d : List (String × δ)) (k : String)
    (v : δ) : dictLookup (dictInsert d k v) k = some v := by
  induction d with
  | nil => simp [dictInsert, dictLookup]
  | cons kv rest ih =>
    obtain ⟨k2, v2⟩ := kv
    simp only [dictInsert]
    cases hk : k2 == k with
    | true => simp [dictLookup, hk]
    | false => simp [dictLookup, hk, ih]

theorem dictLookup_insert_ne {δ : Type} (d : List (String × δ)) (k k2 : String)
    (v : δ) (hne : k2 ≠ k) :
    dictLookup (dictInsert d k v) k2 = dictLookup d k2 := by
  induction d with
  | nil =>
    simp only [dictInsert, dictLookup]
    rw [if_neg (by simpa using fun he => hne he.symm)]
  | cons kv rest ih =>
    obtain ⟨k1, v1⟩ := kv
    simp only [dictInsert]
    cases hk : k1 == k with
    | true =>
      have hk1 : k1 = k := by simpa using hk
      subst hk1
      simp only [dictLookup]
      rw [if_neg (by simpa using fun he => hne he.symm),
        if_neg (by simpa using fun he => hne he.symm)]
    | false => simp only [dictLookup]; rw [ih]

theorem create_room_data_go_preserve {δ : Type} (gen : String → Option δ) :
    ∀ (rooms : List String) (d res : List (String × δ)) (k : String) (doc : δ),
      create_room_data_go gen rooms d = some res →
      gen k = some doc → dictLookup d k = some doc →
      dictLookup res k = some doc := by
  intro rooms
  induction rooms with
  | nil =>
    intro d res k doc h _ hd
    simp only [create_room_data_go, Option.some.injEq] at h
    subst h
    exact hd
  | cons name rest ih =>
    intro d res k doc h hg hd
    simp only [create_room_data_go] at h
    cases hgn : gen name with
    | none =>
      rw [hgn] at h
      simp at h
    | some docn =>
      rw [hgn] at h
      by_cases hk : name = k
      · subst hk
        have hdoc : docn = doc := by
          rw [hgn] at hg
          simpa using hg
        subst hdoc
        exact ih _ res name docn h hg (dictLookup_insert_self d name docn)
      · refine ih _ res k doc h hg ?_
        rw [dictLookup_insert_ne d name k docn (fun he => hk he.symm)]
        exact hd

theorem create_room_data_go_mem {δ : Type} (gen : String → Option δ) :
    ∀ (rooms : List String) (d res : List (String × δ)),
      create_room_data_go gen rooms d = some res →
      ∀ name ∈ rooms, ∃ doc, gen name = some doc ∧
        dictLookup res name = some doc := by
  intro rooms
  induction rooms with
  | nil =>
    intro d res _ name hn
    simp at hn
  | cons first rest ih =>
    intro d res h name hn
    simp only [create_room_data_go] at h
    cases hgf : gen first with
    | none =>
      rw [hgf] at h
      simp at h
    | some docf =>
      rw [hgf] at h
      rcases List.mem_cons.mp hn with rfl | hr
      · exact ⟨docf, hgf, create_room_data_go_preserve gen rest _ res name docf
          h hgf (dictLookup_insert_self d name docf)⟩
      · exact ih _ res h name hr

theorem create_room_data_go_fail {δ : Type} (gen : String → Option δ) :
    ∀ (rooms : List String) (d : List (String × δ)),
      (∃ name ∈ rooms, gen name = none) →
      create_room_data_go gen rooms d = none := by
  intro rooms
  induction rooms with
  | nil =>
    intro d h
    obtain ⟨name, hn, _⟩ := h
    simp at hn
  | cons first rest ih =>
    intro d h
    simp only [create_room_data_go]
    cases hgf : gen first with
    | none => rfl
    | some docf =>
      obtain ⟨name, hn, hgen⟩ := h
      rcases List.mem_cons.mp hn with rfl | hr
      · rw [hgf] at hgen
        exact Option.noConfusion hgen
      · exact ih _ ⟨name, hr, hgen⟩

/-- C10: when the room-data stage succeeds, the produced dict has an entry
for every configured room (the document the generator produced for it), so
the room-absent-from-the-data-map branch of the final assembly can never be
taken for a configured room; and any per-room generation failure makes the
whole stage fail. -/
theorem room_data_pages_total {δ : Type} (gen : String → Option δ)
    (rooms : List String) :
    (∀ d, create_room_data_pages gen rooms = some d →
      ∀ name ∈ rooms, ∃ doc, gen name = some doc ∧
        dictLookup d name = some doc) ∧
    ((∃ name ∈ rooms, gen name = none) →
      create_room_data_pages gen rooms = none) :=
  ⟨fun d h => create_room_data_go_mem gen rooms [] d h,
   fun h => create_room_data_go_fail gen rooms [] h⟩

/-- C10 witness: a two-room configuration with a total generator yields a
dict covering both rooms; a generator failing on the second room makes the
stage fail. -/
theorem room_data_pages_total_witness :
    (∀ name ∈ ["alpha", "beta"],
      ∃ doc, (fun n => if n == "alpha" then some 1 else some 2) name = some doc ∧
        dictLookup [("alpha", 1), ("beta", 2)] name = some doc) ∧
    create_room_data_pages (fun n => if n == "beta" then none else some 0)
        ["alpha", "beta"] = none :=
  ⟨(room_data_pages_total (fun n => if n == "alpha" then some 1 else some 2)
      ["alpha", "beta"]).1 [("alpha", 1), ("beta", 2)] (by decide),
   (room_data_pages_total (fun n => if n == "beta" then none else some 0)
      ["alpha", "beta"]).2 ⟨"beta", by decide, by decide⟩⟩

/-! ## Cropper lemmas and claim -/

theorem load_page_in_range {β : Type} (doc : List β) (pno : Int) (h0 : 0 ≤ pno)
    (h1 : pno < (doc.length : Int)) : load_page doc pno = doc[pno.toNat]? := by
  simp only [load_page]
  rw [if_neg (by omega), Int.emod_eq_of_lt h0 h1]

theorem load_page_out_of_range {β : Type} (doc : List β) (pno : Int)
    (h : (doc.length : Int) ≤ pno) : load_page doc pno = none := by
  simp only [load_page]
  rw [if_pos (by omega)]

theorem crop_pdf_in_range {β ρ : Type} (doc : List β) :
    ∀ table : List (CropRow ρ),
      (∀ r ∈ table, 1 ≤ r.source_page ∧ r.source_page ≤ (doc.length : Int)) →
      ∃ out, crop_pdf doc table = some out ∧ out.length = table.length ∧
        ∀ i : Nat, out[i]? = (table[i]?).bind
          (fun r => (doc[(r.source_page - 1).toNat]?).map (fun p => (p, r.rect))) := by
  intro table
  induction table with
  | nil => exact fun _ => ⟨[], rfl, rfl, fun i => by simp⟩
  | cons r rest ih =>
    intro hin
    obtain ⟨hr1, hr2⟩ := hin r (List.mem_cons_self _ _)
    obtain ⟨out, hout, hlen, hidx⟩ :=
      ih (fun x hx => hin x (List.mem_cons_of_mem _ hx))
    have hload : load_page doc (r.source_page - 1)
        = doc[(r.source_page - 1).toNat]? :=
      load_page_in_range doc _ (by omega) (by omega)
    have hlt : (r.source_page - 1).toNat < doc.length := by omega
    obtain ⟨p, hp⟩ : ∃ p, doc[(r.source_page - 1).toNat]? = some p :=
      ⟨_, List.getElem?_eq_getElem hlt⟩
    refine ⟨(p, r.rect) :: out, ?_, by simp [hlen], ?_⟩
    · simp only [crop_pdf]
      rw [hload, hp, hout]
    · intro i
      cases i with
      | zero =>
        have hp2 : doc[r.source_page.toNat - 1]? = some p := by
          have hnat : r.source_page.toNat - 1 = (r.source_page - 1).toNat := by
            omega
          rw [hnat]
          exact hp
        simp [hp2]
      | succ i => simpa using hidx i

theorem crop_pdf_fail {β ρ : Type} (doc : List β) :
    ∀ table : List (CropRow ρ),
      (∃ r ∈ table, (doc.length : Int) < r.source_page) →
      crop_pdf doc table = none := by
  intro table
  induction table with
  | nil =>
    intro h
    obtain ⟨r, hr, _⟩ := h
    simp at hr
  | cons r rest ih =>
    intro h
    simp only [crop_pdf]
    cases hl : load_page doc (r.source_page - 1) with
    | none => rfl
    | some page =>
      obtain ⟨r0, hr0mem, hr0⟩ := h
      rcases List.mem_cons.mp hr0mem with rfl | hmem
      · exfalso
        have hoor := load_page_out_of_range doc (r0.source_page - 1) (by omega)
        rw [hoor] at hl
        exact Option.noConfusion hl
      · rw [ih ⟨r0, hmem, hr0⟩]

/-- C8, counterexample to the claim as stated: the claim asserts a
`PageRangeError` for every out-of-bounds 1-based `source_page`, including
values below 1; but on a one-page document a record with `source_page = 0`
(0-based index -1) succeeds — `fitz` resolves negative page indices from the
end of the document, Python-sequence style — and crops the last page instead
of failing. -/
theorem crop_zero_source_page_counterexample :
    crop_pdf [0] ([⟨"r", 0, ()⟩] : List (CropRow Unit))
      = some [((0 : Nat), ())] := rfl

/-- C8 (amended): crop processes the records in table order appending
exactly one output page per record (the source page at 0-based index
`source_page - 1` paired with the record's crop rectangle) whenever every
record's `source_page` is between 1 and the source page count, and fails
with a `PageRangeError` (producing no output) whenever some record's
`source_page` exceeds the source page count; `source_page` values below 1 do
not fail while in range — they resolve from the end of the document,
Python-sequence style. -/
theorem crop_page_range_contract {β ρ : Type} (doc : List β)
    (table : List (CropRow ρ)) :
    ((∀ r ∈ table, 1 ≤ r.source_page ∧ r.source_page ≤ (doc.length : Int)) →
      ∃ out, crop_pdf doc table = some out ∧ out.length = table.length ∧
        ∀ i : Nat, out[i]? = (table[i]?).bind
          (fun r => (doc[(r.source_page - 1).toNat]?).map
            (fun p => (p, r.rect)))) ∧
    ((∃ r ∈ table, (doc.length : Int) < r.source_page) →
      crop_pdf doc table = none) :=
  ⟨crop_pdf_in_range doc table, crop_pdf_fail doc table⟩

/-- C8 witness: on a two-page document, a record with `source_page = 2`
crops exactly that page, while a record with `source_page = 3` makes the
whole crop fail. -/
theorem crop_page_range_contract_witness :
    (∃ out, crop_pdf ([5, 6] : List Nat) ([⟨"r", 2, ()⟩] : List (CropRow Unit))
        = some out ∧ out.length = ([⟨"r", 2, ()⟩] : List (CropRow Unit)).length ∧
        ∀ i : Nat, out[i]? = (([⟨"r", 2, ()⟩] : List (CropRow Unit))[i]?).bind
          (fun r => ((([5, 6] : List Nat))[(r.source_page - 1).toNat]?).map
            (fun p => (p, r.rect)))) ∧
    crop_pdf ([5, 6] : List Nat) ([⟨"r", 3, ()⟩] : List (CropRow Unit)) = none :=
  ⟨(crop_page_range_contract ([5, 6] : List Nat)
      ([⟨"r", 2, ()⟩] : List (CropRow Unit))).1 (by decide),
   (crop_page_range_contract ([5, 6] : List Nat)
      ([⟨"r", 3, ()⟩] : List (CropRow Unit))).2 ⟨⟨"r", 3, ()⟩, by simp, by decide⟩⟩

end WiringDoc
